import Mathlib

/-!
Verification of the selection-expression evaluator in
`src/gromacs/selection/evaluate.cpp`.

Index groups are modelled as lists of atom indices (sorted, strictly
increasing by the data-model invariant), with an optional name.  The
index-group algebra (`gmx_ana_index_*` from `indexutil.c`) is not part of the
source slice, so those operations are modelled from the specification's
description in section 4.1; all evaluator functions are translated directly
from `evaluate.cpp`.
-/

/-- An index group: a name plus an ordered sequence of atom indices
(`gmx_ana_index_t`).  The live length `isize` is the list length. -/
structure IndexGroup where
  name : Option String
  index : List Nat
deriving DecidableEq

/-- Modelled from the spec: `intersect(dst, a, b)` computes the intersection
of two sorted index groups (`gmx_ana_index_intersection`). -/
def gmx_ana_index_intersection (a b : List Nat) : List Nat :=
  a.filter fun x => decide (x ∈ b)

/-- Modelled from the spec: `difference(dst, a, b)` computes the elements of
`a` not present in `b` (`gmx_ana_index_difference`). -/
def gmx_ana_index_difference (a b : List Nat) : List Nat :=
  a.filter fun x => !decide (x ∈ b)

/-- Modelled from the spec: `partition(inside, outside, full, probe)` splits
`full` into the part present in `probe` and the part absent from it
(`gmx_ana_index_partition`). -/
def gmx_ana_index_partition (full probe : List Nat) : List Nat × List Nat :=
  (gmx_ana_index_intersection full probe, gmx_ana_index_difference full probe)

/-- Insertion of one index into a sorted list, helper for the sort. -/
def gmx_sort_insert (x : Nat) : List Nat → List Nat
  | [] => [x]
  | y :: ys => if x ≤ y then x :: y :: ys else y :: gmx_sort_insert x ys

/-- Modelled from the spec: `sort(g)` sorts an index group by increasing
index (`gmx_ana_index_sort`). -/
def gmx_ana_index_sort : List Nat → List Nat
  | [] => []
  | x :: xs => gmx_sort_insert x (gmx_ana_index_sort xs)

/-- Modelled from the spec: `merge(dst, a, b)` produces the sorted union of
two sorted index groups, used on disjoint inputs
(`gmx_ana_index_merge`). -/
def gmx_ana_index_merge (a b : List Nat) : List Nat :=
  gmx_ana_index_sort (a ++ b)

/-- Modelled from the spec: `copy(dst, src)` copies an index group, contents
and name (`gmx_ana_index_copy`). -/
def gmx_ana_index_copy (src : IndexGroup) : IndexGroup :=
  src

/-!
Boolean evaluators, translated from `evaluate.cpp`.

A child of a boolean element is represented by its evaluation function: the
index group its value takes when the child is evaluated over a given group
(`child->evaluate(data, child, g)` followed by reading `child->v.u.g`).  A
child without an evaluation function is `Option.none`; calling it is a null
dereference in the source, modelled as an `Option.none` result of the whole
evaluator.
-/

/-- The `while (child && sel->v.u.g->isize > 0)` loop of
`_gmx_sel_evaluate_and`: each remaining child is evaluated over the running
intersection `v`, which is then intersected in place with the child's value
group. -/
def andLoop : List (Option (List Nat → List Nat)) → List Nat → Option (List Nat)
  | [], v => some v
  | c :: rest, v =>
    if v = [] then some v
    else
      match c with
      | none => none
      | some f => andLoop rest (gmx_ana_index_intersection v (f v))

/-- `_gmx_sel_evaluate_and`: skips the first child when it has no evaluation
function, evaluates the first remaining child over `g` and copies its value
group, then runs the short-circuiting intersection loop. -/
def _gmx_sel_evaluate_and (children : List (Option (List Nat → List Nat)))
    (g : List Nat) : Option (List Nat) :=
  match children with
  | [] => none
  | c0 :: rest0 =>
    match (match c0 with | none => rest0 | some _ => c0 :: rest0) with
    | [] => none
    | first :: rest =>
      match first with
      | none => none
      | some f => andLoop rest (f g)

/-- Observer for the AND loop: the (input group, resulting value group)
pair of every child evaluation the loop performs. -/
def andCalls (fs : List (List Nat → List Nat)) (v : List Nat) :
    List (List Nat × List Nat) :=
  match fs with
  | [] => []
  | f :: rest =>
    if v = [] then []
    else (v, f v) :: andCalls rest (gmx_ana_index_intersection v (f v))

/-- The inputs of successive AND child evaluations follow the running
intersection: each child is called on the current value group, and the next
running group is the intersection with that child's result. -/
def runningIntersectionChain : List Nat → List (List Nat × List Nat) → Prop
  | _, [] => True
  | v, (inp, out) :: rest =>
    inp = v ∧ runningIntersectionChain (gmx_ana_index_intersection v out) rest

/-- `_gmx_sel_evaluate_not`: reserves `|g|` pool slots on the child
(first component), evaluates the child over `g` and takes the set
difference `g \ child(g)`. -/
def _gmx_sel_evaluate_not (childf : List Nat → List Nat) (g : List Nat) :
    Nat × List Nat :=
  (g.length, gmx_ana_index_difference g (childf g))

/-- The first child of an OR element: either an evaluation function, or
(for a child without one) the value group already stored on the child,
consumed without re-evaluation. -/
def orFirstGroup (first : (List Nat → List Nat) ⊕ List Nat) (g : List Nat) :
    List Nat :=
  match first with
  | Sum.inl f => f g
  | Sum.inr existing => existing

/-- The `while (child && tmp.isize > 0)` loop of `_gmx_sel_evaluate_or`:
each remaining child is evaluated over the remainder `rem`, the inside part
of the partition is appended to the accumulated result (the source extends
`sel->v.u.g->isize` over the contiguous pool buffer), the outside part
becomes the new remainder, and the accumulated group is sorted at the
end. -/
def orLoop (fs : List (List Nat → List Nat)) (acc rem : List Nat) : List Nat :=
  match fs with
  | [] => gmx_ana_index_sort acc
  | f :: rest =>
    if rem = [] then gmx_ana_index_sort acc
    else
      let p := gmx_ana_index_partition rem (f rem)
      orLoop rest (acc ++ p.1) p.2

/-- `_gmx_sel_evaluate_or`: partitions `g` by the first child's value group
(evaluating the child over `g` when it has an evaluation function), then
runs the remainder loop over the other children. -/
def _gmx_sel_evaluate_or (first : (List Nat → List Nat) ⊕ List Nat)
    (rest : List (List Nat → List Nat)) (g : List Nat) : List Nat :=
  let p := gmx_ana_index_partition g (orFirstGroup first g)
  orLoop rest p.1 p.2

/-- Observer for the OR loop: the (input group, resulting value group) pair
of every child evaluation the loop performs. -/
def orCalls (fs : List (List Nat → List Nat)) (rem : List Nat) :
    List (List Nat × List Nat) :=
  match fs with
  | [] => []
  | f :: rest =>
    if rem = [] then []
    else (rem, f rem) :: orCalls rest (gmx_ana_index_difference rem (f rem))

/-- The inputs of successive OR child evaluations follow the remainder:
each child is called on the part of the original group not yet covered,
and the next remainder removes that child's value group. -/
def remainderChain : List Nat → List (List Nat × List Nat) → Prop
  | _, [] => True
  | rem, (inp, out) :: rest =>
    inp = rem ∧ remainderChain (gmx_ana_index_difference rem out) rest

/-!
Subexpression evaluation, translated from `evaluate.cpp`.

A subexpression element (`SEL_SUBEXPR`) carries the cached evaluation group
`u.cgrp` and the accumulated value storage `v`.  Vector values (the
`INT_VALUE` / `REAL_VALUE` / `STR_VALUE` storage arrays, and abstractly the
`POS_VALUE` payload) are modelled as a list over an abstract value type `V`;
the three vector cases of the source differ only in the array they touch.
The child is represented by its evaluation function: the values it produces
when evaluated over a given index group.
-/

/-- The selection value types (`e_selvalue_t`). -/
inductive SelValueType where
  | noValue
  | intValue
  | realValue
  | strValue
  | posValue
  | groupValue
deriving DecidableEq

/-- Errors thrown by the evaluators (`GMX_THROW`). -/
inductive EvalError where
  | notImplementedError
  | internalError
deriving DecidableEq

/-- Per-frame state of a `SEL_SUBEXPR` element: the cached evaluation group
`u.cgrp` (name and indices) and the stored values `v`. -/
structure SubState (V : Type) where
  cgrpName : Option String
  cgrp : List Nat
  vals : List V
deriving DecidableEq

/-- The backwards value-merge loop of `_gmx_sel_evaluate_subexpr`
(`for (k = sel->u.cgrp.isize + gmiss.isize - 1; k >= 0; k--)`), translated
as written in the source: `i` walks the cached `cgrp` indices from the high
end, `j` walks the `gmiss` indices from the high end, and slot `k`
receives `sel->v.u.i[j--]` when `i < 0` or `cgrp.index[i] < gmiss.index[j]`
and `sel->child->v.u.i[i--]` otherwise.  `cis` holds the remaining
`(cgrp.index[i], child->v[i])` pairs in descending order, `gjs` the
remaining `(gmiss.index[j], sel->v[j])` pairs in descending order, and
`acc` the slots already written (high slots are pushed first, so `acc` ends
in ascending slot order). -/
def subexprMergeLoop {V : Type} :
    List (Nat × V) → List (Nat × V) → List V → List V
  | [], [], acc => acc
  | [], (_, sv) :: gjs, acc => subexprMergeLoop [] gjs (sv :: acc)
  | (_, cv) :: cis, [], acc => subexprMergeLoop cis [] (cv :: acc)
  | (ci, cv) :: cis, (gj, sv) :: gjs, acc =>
    if ci < gj then subexprMergeLoop ((ci, cv) :: cis) gjs (sv :: acc)
    else subexprMergeLoop cis ((gj, sv) :: gjs) (cv :: acc)
termination_by cis gjs _ => cis.length + gjs.length

/-- Pads a value list with a junk value to a given length; reads past the
live length of a value array in the source yield unspecified stored
memory, modelled by the default `d`. -/
def padVals {V : Type} (l : List V) (n : Nat) (d : V) : List V :=
  l ++ List.replicate (n - l.length) d

/-- The vector-kind value merge of `_gmx_sel_evaluate_subexpr`, assembled
from the backwards loop: pairs the cached `cgrp` indices with the child's
fresh values and the `gmiss` indices with the node's old values, exactly as
the source's array reads do. -/
def subexprValueMerge {V : Type} (cgrpIndex gmissIndex : List Nat)
    (selVals childVals : List V) (d : V) : List V :=
  subexprMergeLoop
    ((cgrpIndex.zip (padVals childVals cgrpIndex.length d)).reverse)
    ((gmissIndex.zip (padVals selVals gmissIndex.length d)).reverse)
    []

/-- Modelled from the spec: the intended in-order value merge — walk both
key/value sources in ascending index order, taking the cached value when
the cached index is smaller and the freshly computed child value when the
`gmiss` index is smaller, so that the merged values stay aligned with the
merged `cgrp` indices. -/
def mergeValuesSpec {V : Type} : List (Nat × V) → List (Nat × V) → List V
  | [], gs => gs.map Prod.snd
  | cs, [] => cs.map Prod.snd
  | (ci, cv) :: cs, (gi, gv) :: gs =>
    if ci < gi then cv :: mergeValuesSpec cs ((gi, gv) :: gs)
    else gv :: mergeValuesSpec ((ci, cv) :: cs) gs
termination_by cs gs => cs.length + gs.length

/-- `_gmx_sel_evaluate_subexpr` (SubExpr-general).  On the first call of a
frame (`cgrp.isize == 0`) the child is evaluated over `g` with its storage
temporarily redirected to this element's storage, and `g` is copied into
`cgrp` with the pre-existing name restored across the copy.  Otherwise the
missing part `gmiss = g \ cgrp` is computed; when it is non-empty the child
is evaluated over `gmiss` into pool-reserved scratch, the fresh values are
merged with the stored ones (`gmx_ana_index_merge` for `GROUP_VALUE`
storage — represented by the `groupMerge` parameter since the value type is
abstract here — the backwards loop for the vector kinds, a NotImplemented
error for `POS_VALUE` and an internal error for the remaining kinds), and
finally `cgrp` is merged with `gmiss`. -/
def _gmx_sel_evaluate_subexpr {V : Type} (vt : SelValueType)
    (groupMerge : List V → List V → List V)
    (childEval : List Nat → List V) (d : V)
    (st : SubState V) (g : IndexGroup) : Except EvalError (SubState V) :=
  if st.cgrp = [] then
    let newVals := childEval g.index
    let name := st.cgrpName
    let copied := gmx_ana_index_copy g
    Except.ok { cgrpName := name, cgrp := copied.index, vals := newVals }
  else
    let gmiss := gmx_ana_index_difference g.index st.cgrp
    if gmiss = [] then Except.ok st
    else
      let childVals := childEval gmiss
      if vt = SelValueType.groupValue then
        Except.ok { st with
          vals := groupMerge childVals st.vals,
          cgrp := gmx_ana_index_merge st.cgrp gmiss }
      else
        match vt with
        | SelValueType.intValue | SelValueType.realValue
        | SelValueType.strValue =>
          Except.ok { st with
            vals := subexprValueMerge st.cgrp gmiss st.vals childVals d,
            cgrp := gmx_ana_index_merge st.cgrp gmiss }
        | SelValueType.posValue => Except.error EvalError.notImplementedError
        | _ => Except.error EvalError.internalError

/-- `_gmx_sel_evaluate_subexpr_staticeval`: the first call of a frame
evaluates the child over `g` and records `g` into `cgrp` via
`gmx_ana_index_set(&sel->u.cgrp, g->isize, g->index, sel->u.cgrp.name, 0)`,
keeping the element's own `cgrp` name; later calls are no-ops. -/
def _gmx_sel_evaluate_subexpr_staticeval {V : Type}
    (childEval : List Nat → List V) (st : SubState V) (g : IndexGroup) :
    SubState V :=
  if st.cgrp = [] then
    { cgrpName := st.cgrpName, cgrp := g.index, vals := childEval g.index }
  else st

/-- The value-extraction walk of `_gmx_sel_evaluate_subexprref` for the
vector value kinds (`for (i = j = 0; i < g->isize; ++i, ++j) { while
(sel->child->u.cgrp.index[j] < g->index[i]) ++j; ... }`): `pairs` holds the
target subexpression's cached `cgrp` indices zipped with its stored values
from position `j` on.  Running past the end of the target's `cgrp` is an
out-of-bounds access in the source, modelled as `Option.none`. -/
def refWalk {V : Type} : List (Nat × V) → List Nat → Option (List V)
  | _, [] => some []
  | [], _ :: _ => none
  | (c, v) :: rest, gi :: gs =>
    if c < gi then refWalk rest (gi :: gs)
    else Option.map (fun l => v :: l) (refWalk rest gs)

/-- `_gmx_sel_evaluate_subexprref` restricted to the `INT_VALUE` /
`REAL_VALUE` / `STR_VALUE` cases with a non-null `g` (the three source
branches differ only in the array they copy): sets `sel->v.nr = g->isize`
(first component) and extracts, for each index of `g`, the target
subexpression's stored value at that index's position within the target's
cached `cgrp`.  `tcgrp` and `tvals` are the target's cached group and
stored values after the target has been evaluated over `g`. -/
def _gmx_sel_evaluate_subexprref {V : Type} (tcgrp : List Nat)
    (tvals : List V) (g : List Nat) : Option (Nat × List V) :=
  Option.map (fun vs => (g.length, vs)) (refWalk (tcgrp.zip tvals) g)

/-!
Arithmetic evaluation, translated from `evaluate.cpp`.

The source computes over `real` (floating point); the claims about
`_gmx_sel_evaluate_arithmetic` concern result length and operand indexing,
so values are abstracted to a type `V` with an abstract binary operator
(the `ARITH_PLUS` / `ARITH_MINUS` / `ARITH_MULT` / `ARITH_DIV` /
`ARITH_EXP` cases; the unary `ARITH_NEG` case reads no right operand and is
not needed by the claims).
-/

/-- The evaluation loop of `_gmx_sel_evaluate_arithmetic`
(`for (i = i1 = i2 = 0; i < n; ++i)`): reads `left[i1]` and `right[i2]`,
stores `op` of them into slot `i`, and advances `i1` (resp. `i2`) only when
the left (resp. right) operand is not `SEL_SINGLEVAL`.  Reads past the live
values yield unspecified memory, modelled by the default `d`. -/
def arithLoop {V : Type} (op : V → V → V) (leftSingle rightSingle : Bool)
    (lv rv : List V) (d : V) : Nat → Nat → Nat → List V
  | 0, _, _ => []
  | n + 1, i1, i2 =>
    op (lv.getD i1 d) (rv.getD i2 d) ::
      arithLoop op leftSingle rightSingle lv rv d n
        (if leftSingle then i1 else i1 + 1)
        (if rightSingle then i2 else i2 + 1)

/-- `_gmx_sel_evaluate_arithmetic` for a binary operator: evaluates both
children over `g` (`_gmx_sel_evaluate_children`), sets
`sel->v.nr = n = (sel->flags & SEL_SINGLEVAL) ? 1 : g->isize` (first
component) and runs the evaluation loop.  The pool bookkeeping
(`SelelemTemporaryValueAssigner` / `MempoolSelelemReserver`) redirects
storage without affecting the computed values and is not modelled. -/
def _gmx_sel_evaluate_arithmetic {V : Type} (op : V → V → V)
    (selSingle leftSingle rightSingle : Bool)
    (leftEval rightEval : List Nat → List V) (d : V) (g : List Nat) :
    Nat × List V :=
  let lv := leftEval g
  let rv := rightEval g
  let n := if selSingle then 1 else g.length
  (n, arithLoop op leftSingle rightSingle lv rv d n 0 0)

/-!
Per-frame method lifecycle, translated from `evaluate.cpp`.

`init_frame_eval` clears `SEL_INITFRAME` and `SEL_EVALFRAME` on every node
and sets `SEL_INITFRAME` on `SEL_EXPRESSION` nodes whose method declares an
`init_frame` callback, without descending through `SEL_SUBEXPRREF` nodes.
`_gmx_sel_evaluate_method` clears the flag on its first evaluation of the
frame and invokes the callback exactly then.  A shared `SEL_EXPRESSION`
node is a single mutable object evaluated several times per frame (once per
subexpression reference); its per-frame flag history is modelled as a state
machine with a ghost invocation counter.
-/

/-- The selection element types (`e_selelem_t`). -/
inductive SelType where
  | selRoot
  | selConst
  | selExpression
  | selSubexpr
  | selSubexprref
  | selBoolean
  | selArithmetic
  | selModifier
deriving DecidableEq

/-- A selection tree node: element type, whether its method declares an
`init_frame` callback, the `SEL_INITFRAME` and `SEL_EVALFRAME` flags, and
the children (the source's `child` list chained by `next`). -/
inductive SelTree where
  | node (typ : SelType) (hasInitFrameCb : Bool)
      (initFrameFlag : Bool) (evalFrameFlag : Bool)
      (children : List SelTree) : SelTree

mutual

/-- `init_frame_eval`: clears `SEL_INITFRAME | SEL_EVALFRAME`, sets
`SEL_INITFRAME` on expression nodes whose method has an `init_frame`
callback, and recurses into children except through `SEL_SUBEXPRREF`
nodes. -/
def init_frame_eval : SelTree → SelTree
  | SelTree.node typ cb _ _ ch =>
    SelTree.node typ cb (decide (typ = SelType.selExpression) && cb) false
      (if typ = SelType.selSubexprref then ch else init_frame_eval_children ch)

/-- The sibling loop of `init_frame_eval` (`while (sel) { ...; sel =
sel->next; }`). -/
def init_frame_eval_children : List SelTree → List SelTree
  | [] => []
  | t :: ts => init_frame_eval t :: init_frame_eval_children ts

end

/-- The `SEL_INITFRAME` flag of a node. -/
def SelTree.initFrame : SelTree → Bool
  | SelTree.node _ _ i _ _ => i

/-- Per-frame flag state of one shared `SEL_EXPRESSION` node, with a ghost
counter of `init_frame` callback invocations. -/
structure MethodState where
  initFrame : Bool
  initCount : Nat
deriving DecidableEq

/-- The `SEL_INITFRAME` handling of one `_gmx_sel_evaluate_method` call:
when the flag is set, clear it and invoke the method's `init_frame`
callback (counted by the ghost counter); otherwise do nothing. -/
def methodFrameStep (s : MethodState) : MethodState :=
  if s.initFrame then { initFrame := false, initCount := s.initCount + 1 }
  else s

/-- `k` successive evaluations of the shared method node within one
frame. -/
def evalsInFrame : Nat → MethodState → MethodState
  | 0, s => s
  | k + 1, s => evalsInFrame k (methodFrameStep s)

/-- One frame of `SelectionEvaluator::evaluate` as seen by a method node
whose method declares an `init_frame` callback: `init_frame_eval` sets
`SEL_INITFRAME`, then the node is evaluated `k` times (once per
subexpression reference reached from the root list). -/
def frameEvals (s : MethodState) (k : Nat) : MethodState :=
  evalsInFrame k { s with initFrame := true }

/-- A run over several frames; `ks` lists the number of evaluations of the
node in each frame. -/
def runFrames (s : MethodState) (ks : List Nat) : MethodState :=
  ks.foldl frameEvals s


theorem mem_gmx_sort_insert (x y : Nat) (l : List Nat) :
    y ∈ gmx_sort_insert x l ↔ y = x ∨ y ∈ l := by
  induction l with
  | nil => simp [gmx_sort_insert]
  | cons z zs ih =>
    by_cases h : x ≤ z
    · simp [gmx_sort_insert, h]
    · simp [gmx_sort_insert, h, ih]
      tauto

theorem gmx_sort_insert_perm (x : Nat) (l : List Nat) :
    List.Perm (gmx_sort_insert x l) (x :: l) := by
  induction l with
  | nil => simp [gmx_sort_insert]
  | cons z zs ih =>
    by_cases h : x ≤ z
    · simp [gmx_sort_insert, h]
    · simp only [gmx_sort_insert, if_neg h]
      exact (ih.cons z).trans (List.Perm.swap x z zs)

theorem gmx_ana_index_sort_perm (l : List Nat) :
    List.Perm (gmx_ana_index_sort l) l := by
  induction l with
  | nil => simp [gmx_ana_index_sort]
  | cons x xs ih =>
    exact (gmx_sort_insert_perm x (gmx_ana_index_sort xs)).trans (ih.cons x)

theorem mem_gmx_ana_index_sort (x : Nat) (l : List Nat) :
    x ∈ gmx_ana_index_sort l ↔ x ∈ l :=
  (gmx_ana_index_sort_perm l).mem_iff

theorem gmx_sort_insert_sorted (x : Nat) (l : List Nat)
    (h : List.Sorted (· ≤ ·) l) :
    List.Sorted (· ≤ ·) (gmx_sort_insert x l) := by
  induction l with
  | nil => simp [gmx_sort_insert]
  | cons z zs ih =>
    rw [List.sorted_cons] at h
    by_cases hxz : x ≤ z
    · rw [gmx_sort_insert, if_pos hxz, List.sorted_cons]
      refine ⟨?_, List.sorted_cons.mpr h⟩
      intro b hb
      rcases List.mem_cons.mp hb with hb | hb
      · exact hb ▸ hxz
      · exact le_trans hxz (h.1 b hb)
    · rw [gmx_sort_insert, if_neg hxz, List.sorted_cons]
      refine ⟨?_, ih h.2⟩
      intro b hb
      rw [mem_gmx_sort_insert] at hb
      rcases hb with hb | hb
      · exact hb ▸ le_of_not_le hxz
      · exact h.1 b hb

theorem gmx_ana_index_sort_sorted_le (l : List Nat) :
    List.Sorted (· ≤ ·) (gmx_ana_index_sort l) := by
  induction l with
  | nil => simp [gmx_ana_index_sort]
  | cons x xs ih => exact gmx_sort_insert_sorted x _ ih

theorem gmx_ana_index_sort_sorted_lt (l : List Nat) (h : l.Nodup) :
    List.Sorted (· < ·) (gmx_ana_index_sort l) := by
  have hnd : (gmx_ana_index_sort l).Nodup :=
    (gmx_ana_index_sort_perm l).symm.nodup h
  have hle := gmx_ana_index_sort_sorted_le l
  have := List.Pairwise.and hle hnd
  exact this.imp fun hab => lt_of_le_of_ne hab.1 hab.2

theorem mem_gmx_ana_index_intersection (a b : List Nat) (x : Nat) :
    x ∈ gmx_ana_index_intersection a b ↔ x ∈ a ∧ x ∈ b := by
  simp [gmx_ana_index_intersection]

theorem mem_gmx_ana_index_difference (a b : List Nat) (x : Nat) :
    x ∈ gmx_ana_index_difference a b ↔ x ∈ a ∧ x ∉ b := by
  simp [gmx_ana_index_difference]

theorem gmx_ana_index_difference_self (a : List Nat) :
    gmx_ana_index_difference a a = [] := by
  rw [gmx_ana_index_difference, List.filter_eq_nil_iff]
  intro x hx
  simp [hx]

theorem gmx_ana_index_intersection_append_difference_perm (a b : List Nat) :
    List.Perm (gmx_ana_index_intersection a b ++ gmx_ana_index_difference a b) a := by
  simpa [gmx_ana_index_intersection, gmx_ana_index_difference] using
    List.filter_append_perm (fun x => decide (x ∈ b)) a

theorem gmx_ana_index_difference_sublist (a b : List Nat) :
    (gmx_ana_index_difference a b).Sublist a :=
  List.filter_sublist a

theorem gmx_ana_index_intersection_sublist (a b : List Nat) :
    (gmx_ana_index_intersection a b).Sublist a :=
  List.filter_sublist a

/-!
Boolean AND (claim C2).
-/

theorem andLoop_map_some (fs : List (List Nat → List Nat)) (v : List Nat) :
    ∃ r, andLoop (fs.map Option.some) v = some r
      ∧ ∀ x, x ∈ r ↔ x ∈ v ∧ ∀ p ∈ andCalls fs v, x ∈ p.2 := by
  induction fs generalizing v with
  | nil => exact ⟨v, rfl, by simp [andCalls]⟩
  | cons f rest ih =>
    by_cases hv : v = []
    · subst hv
      refine ⟨[], by simp [andLoop], ?_⟩
      simp [andCalls]
    · obtain ⟨r, hr, hiff⟩ := ih (gmx_ana_index_intersection v (f v))
      refine ⟨r, ?_, ?_⟩
      · simpa [andLoop, hv] using hr
      · intro x
        rw [hiff x, andCalls, if_neg hv]
        simp only [List.forall_mem_cons, mem_gmx_ana_index_intersection]
        tauto

theorem andCalls_chain (fs : List (List Nat → List Nat)) (v : List Nat) :
    runningIntersectionChain v (andCalls fs v) := by
  induction fs generalizing v with
  | nil => simp [andCalls, runningIntersectionChain]
  | cons f rest ih =>
    by_cases hv : v = []
    · simp [andCalls, hv, runningIntersectionChain]
    · rw [andCalls, if_neg hv]
      exact ⟨rfl, ih _⟩

theorem andCalls_inputs_ne_nil (fs : List (List Nat → List Nat))
    (v : List Nat) : ∀ p ∈ andCalls fs v, p.1 ≠ [] := by
  induction fs generalizing v with
  | nil => simp [andCalls]
  | cons f rest ih =>
    by_cases hv : v = []
    · simp [andCalls, hv]
    · rw [andCalls, if_neg hv]
      intro p hp
      rcases List.mem_cons.mp hp with hp | hp
      · subst hp; exact hv
      · exact ih _ p hp

/-- Claim C2: for a Boolean AND node, the first child possessing an
evaluator is evaluated over `g` and its value group copied to the node
(skipping a leading child without an evaluator changes nothing); each
subsequent child is evaluated over the current running intersection, whose
chain starts from the first child's value group; iteration stops as soon as
the running intersection becomes empty (every performed call has a
non-empty input); and the final value group is exactly the intersection of
all the evaluated children's value groups. -/
theorem evaluate_and_spec (f0 : List Nat → List Nat)
    (fs : List (List Nat → List Nat)) (g : List Nat) :
    ∃ r, _gmx_sel_evaluate_and (Option.some f0 :: fs.map Option.some) g = some r
      ∧ _gmx_sel_evaluate_and
          (Option.none :: Option.some f0 :: fs.map Option.some) g = some r
      ∧ runningIntersectionChain (f0 g) (andCalls fs (f0 g))
      ∧ (∀ p ∈ andCalls fs (f0 g), p.1 ≠ [])
      ∧ (∀ x, x ∈ r ↔ x ∈ f0 g ∧ ∀ p ∈ andCalls fs (f0 g), x ∈ p.2) := by
  obtain ⟨r, hr, hiff⟩ := andLoop_map_some fs (f0 g)
  exact ⟨r, hr, hr, andCalls_chain fs (f0 g),
    andCalls_inputs_ne_nil fs (f0 g), hiff⟩

/-!
Boolean OR (claim C3).
-/

theorem orLoop_mem (fs : List (List Nat → List Nat)) (acc rem : List Nat)
    (x : Nat) :
    x ∈ orLoop fs acc rem
      ↔ x ∈ acc ∨ ∃ p ∈ orCalls fs rem, x ∈ p.1 ∧ x ∈ p.2 := by
  induction fs generalizing acc rem with
  | nil => simp [orLoop, orCalls, mem_gmx_ana_index_sort]
  | cons f rest ih =>
    by_cases hrem : rem = []
    · simp [orLoop, orCalls, hrem, mem_gmx_ana_index_sort]
    · rw [orLoop, if_neg hrem, orCalls, if_neg hrem, ih]
      simp only [gmx_ana_index_partition, List.mem_append,
        mem_gmx_ana_index_intersection]
      constructor
      · rintro ((hx | hx) | ⟨p, hp, hx⟩)
        · exact Or.inl hx
        · exact Or.inr ⟨(rem, f rem), List.mem_cons_self _ _, hx⟩
        · exact Or.inr ⟨p, List.mem_cons_of_mem _ hp, hx⟩
      · rintro (hx | ⟨p, hp, hx⟩)
        · exact Or.inl (Or.inl hx)
        · rcases List.mem_cons.mp hp with hp | hp
          · subst hp; exact Or.inl (Or.inr hx)
          · exact Or.inr ⟨p, hp, hx⟩

theorem orLoop_sorted (fs : List (List Nat → List Nat)) (acc rem : List Nat)
    (h : (acc ++ rem).Nodup) : List.Sorted (· < ·) (orLoop fs acc rem) := by
  induction fs generalizing acc rem with
  | nil => exact gmx_ana_index_sort_sorted_lt acc h.of_append_left
  | cons f rest ih =>
    by_cases hrem : rem = []
    · rw [orLoop, if_pos hrem]
      exact gmx_ana_index_sort_sorted_lt acc h.of_append_left
    · rw [orLoop, if_neg hrem]
      apply ih
      have hperm :
          List.Perm ((acc ++ gmx_ana_index_intersection rem (f rem)) ++
              gmx_ana_index_difference rem (f rem)) (acc ++ rem) := by
        rw [List.append_assoc]
        exact List.Perm.append_left acc
          (gmx_ana_index_intersection_append_difference_perm rem (f rem))
      exact hperm.symm.nodup h

theorem orCalls_chain (fs : List (List Nat → List Nat)) (rem : List Nat) :
    remainderChain rem (orCalls fs rem) := by
  induction fs generalizing rem with
  | nil => simp [orCalls, remainderChain]
  | cons f rest ih =>
    by_cases hrem : rem = []
    · simp [orCalls, hrem, remainderChain]
    · rw [orCalls, if_neg hrem]
      exact ⟨rfl, ih _⟩

theorem orCalls_inputs_ne_nil (fs : List (List Nat → List Nat))
    (rem : List Nat) : ∀ p ∈ orCalls fs rem, p.1 ≠ [] := by
  induction fs generalizing rem with
  | nil => simp [orCalls]
  | cons f rest ih =>
    by_cases hrem : rem = []
    · simp [orCalls, hrem]
    · rw [orCalls, if_neg hrem]
      intro p hp
      rcases List.mem_cons.mp hp with hp | hp
      · subst hp; exact hrem
      · exact ih _ p hp

theorem orCalls_input_subset (fs : List (List Nat → List Nat))
    (rem : List Nat) : ∀ p ∈ orCalls fs rem, ∀ x ∈ p.1, x ∈ rem := by
  induction fs generalizing rem with
  | nil => simp [orCalls]
  | cons f rest ih =>
    by_cases hrem : rem = []
    · simp [orCalls, hrem]
    · rw [orCalls, if_neg hrem]
      intro p hp
      rcases List.mem_cons.mp hp with hp | hp
      · subst hp; exact fun x hx => hx
      · intro x hx
        have := ih _ p hp x hx
        exact (mem_gmx_ana_index_difference rem (f rem) x).mp this |>.1

theorem orCalls_recover (fs : List (List Nat → List Nat)) (rem : List Nat)
    (x : Nat) (hx : x ∈ rem) (h : ∃ p ∈ orCalls fs rem, x ∈ p.2) :
    ∃ p ∈ orCalls fs rem, x ∈ p.1 ∧ x ∈ p.2 := by
  induction fs generalizing rem with
  | nil => simp [orCalls] at h
  | cons f rest ih =>
    by_cases hrem : rem = []
    · simp [orCalls, hrem] at h
    · rw [orCalls, if_neg hrem] at h ⊢
      by_cases hout : x ∈ f rem
      · exact ⟨(rem, f rem), List.mem_cons_self _ _, hx, hout⟩
      · obtain ⟨p, hp, hpx⟩ := h
        rcases List.mem_cons.mp hp with hp | hp
        · subst hp; exact absurd hpx hout
        · have hx' : x ∈ gmx_ana_index_difference rem (f rem) :=
            (mem_gmx_ana_index_difference rem (f rem) x).mpr ⟨hx, hout⟩
          obtain ⟨q, hq, hqx⟩ := ih _ hx' ⟨p, hp, hpx⟩
          exact ⟨q, List.mem_cons_of_mem _ hq, hqx⟩

/-- Claim C3: for a Boolean OR node evaluated over `g`, each child after
the first is evaluated only over the remainder of `g` not covered by
earlier children's value groups (the inputs follow the remainder chain and
are subsets of the initial remainder); iteration stops when the remainder
is empty (every performed call has a non-empty input); the final value
group is sorted; and it equals the union of the evaluated children's value
groups restricted to `g`, where a first child without an evaluator
contributes its existing value group without being re-evaluated. -/
theorem evaluate_or_spec (first : (List Nat → List Nat) ⊕ List Nat)
    (rest : List (List Nat → List Nat)) (g : List Nat)
    (hg : List.Sorted (· < ·) g) :
    (∀ x, x ∈ _gmx_sel_evaluate_or first rest g
        ↔ x ∈ g ∧ (x ∈ orFirstGroup first g
            ∨ ∃ p ∈ orCalls rest
                (gmx_ana_index_difference g (orFirstGroup first g)), x ∈ p.2))
    ∧ List.Sorted (· < ·) (_gmx_sel_evaluate_or first rest g)
    ∧ remainderChain (gmx_ana_index_difference g (orFirstGroup first g))
        (orCalls rest (gmx_ana_index_difference g (orFirstGroup first g)))
    ∧ (∀ p ∈ orCalls rest
          (gmx_ana_index_difference g (orFirstGroup first g)), p.1 ≠ []) := by
  set c0 := orFirstGroup first g with hc0
  set rem0 := gmx_ana_index_difference g c0 with hrem0
  have hnodupg : g.Nodup := hg.imp fun hab => Nat.ne_of_lt hab
  refine ⟨?_, ?_, orCalls_chain rest rem0, orCalls_inputs_ne_nil rest rem0⟩
  · intro x
    rw [_gmx_sel_evaluate_or]
    simp only [gmx_ana_index_partition]
    rw [orLoop_mem, mem_gmx_ana_index_intersection]
    constructor
    · rintro (⟨hxg, hxc⟩ | ⟨p, hp, hp1, hp2⟩)
      · exact ⟨hxg, Or.inl hxc⟩
      · have hxrem : x ∈ rem0 := orCalls_input_subset rest rem0 p hp x hp1
        have hxg : x ∈ g := ((mem_gmx_ana_index_difference g c0 x).mp hxrem).1
        exact ⟨hxg, Or.inr ⟨p, hp, hp2⟩⟩
    · rintro ⟨hxg, hxc | hout⟩
      · exact Or.inl ⟨hxg, hxc⟩
      · by_cases hxc : x ∈ c0
        · exact Or.inl ⟨hxg, hxc⟩
        · have hxrem : x ∈ rem0 :=
            (mem_gmx_ana_index_difference g c0 x).mpr ⟨hxg, hxc⟩
          exact Or.inr (orCalls_recover rest rem0 x hxrem hout)
  · rw [_gmx_sel_evaluate_or]
    simp only [gmx_ana_index_partition]
    apply orLoop_sorted
    exact (gmx_ana_index_intersection_append_difference_perm g c0).symm.nodup
      hnodupg

/-- Witness for claim C3 at a concrete input (spec scenario 3 shape):
children producing `[0, 1]` and `[1, 2, 3]` over `g = [0, 1, 2, 3]`. -/
theorem evaluate_or_spec_witness :
    List.Sorted (· < ·) [0, 1, 2, 3]
      ∧ List.Sorted (· < ·)
          (_gmx_sel_evaluate_or (Sum.inl fun _ => [0, 1])
            [fun _ => [1, 2, 3]] [0, 1, 2, 3]) := by
  have hg : List.Sorted (· < ·) [0, 1, 2, 3] := by
    simp [List.sorted_cons]
  exact ⟨hg,
    (evaluate_or_spec (Sum.inl fun _ => [0, 1]) [fun _ => [1, 2, 3]]
      [0, 1, 2, 3] hg).2.1⟩

/-!
Boolean NOT (claim C4).
-/

/-- Claim C4: for a Boolean NOT node evaluated over `g`, the pool
reservation on the child has size `|g|`, the child is evaluated over `g`
itself, and the node's resulting value group is the set difference
`g \ c` where `c` is the child's resulting value group; on a sorted `g`
the result is sorted. -/
theorem evaluate_not_spec (childf : List Nat → List Nat) (g : List Nat)
    (hg : List.Sorted (· < ·) g) :
    (_gmx_sel_evaluate_not childf g).1 = g.length
    ∧ (∀ x, x ∈ (_gmx_sel_evaluate_not childf g).2
        ↔ x ∈ g ∧ x ∉ childf g)
    ∧ List.Sorted (· < ·) (_gmx_sel_evaluate_not childf g).2 := by
  refine ⟨rfl, ?_, ?_⟩
  · intro x
    exact mem_gmx_ana_index_difference g (childf g) x
  · exact hg.sublist (gmx_ana_index_difference_sublist g (childf g))

/-- Witness for claim C4 at a concrete input (spec scenario 1): over
`g = [0..9]` with a child producing `[2, 4, 6]`, the result is the
complement `[0, 1, 3, 5, 7, 8, 9]`. -/
theorem evaluate_not_spec_witness :
    List.Sorted (· < ·) [0, 1, 2, 3, 4, 5, 6, 7, 8, 9]
      ∧ (_gmx_sel_evaluate_not (fun _ => [2, 4, 6])
            [0, 1, 2, 3, 4, 5, 6, 7, 8, 9]).2 = [0, 1, 3, 5, 7, 8, 9]
      ∧ List.Sorted (· < ·)
          (_gmx_sel_evaluate_not (fun _ => [2, 4, 6])
            [0, 1, 2, 3, 4, 5, 6, 7, 8, 9]).2 := by
  have hg : List.Sorted (· < ·) [0, 1, 2, 3, 4, 5, 6, 7, 8, 9] := by
    simp [List.sorted_cons]
  refine ⟨hg, by rfl, ?_⟩
  exact (evaluate_not_spec (fun _ => [2, 4, 6])
    [0, 1, 2, 3, 4, 5, 6, 7, 8, 9] hg).2.2

/-!
SubExpr-general (claims C1, C5, C7, C9) and SubExpr-static-eval (claim C9).
-/

/-- Claim C1 evidence: the vector-kind value merge of
`_gmx_sel_evaluate_subexpr` reads its two sources swapped.  With cached
`cgrp = [0]` holding the stored value `7` and a second call over
`g = [5]` whose child computes the fresh value `50` for atom `5`, the code
stores values `[50, 7]`, while merging the freshly computed values into the
existing ones in `cgrp`-index order (as the claim, the function's own
documentation and the spec-modelled merge require) yields `[7, 50]`. -/
theorem subexpr_merge_swapped_sources :
    _gmx_sel_evaluate_subexpr SelValueType.intValue gmx_ana_index_merge
        (fun l => l.map fun a => 10 * a) 0
        { cgrpName := none, cgrp := [0], vals := [7] }
        { name := none, index := [5] }
      = Except.ok { cgrpName := none, cgrp := [0, 5], vals := [50, 7] }
    ∧ mergeValuesSpec [(0, 7)] [(5, 50)] = [7, 50]
    ∧ ([50, 7] : List Nat) ≠ [7, 50] := by
  refine ⟨?_, ?_, by decide⟩
  · simp [_gmx_sel_evaluate_subexpr, gmx_ana_index_difference,
      subexprValueMerge, padVals, subexprMergeLoop, gmx_ana_index_merge,
      gmx_ana_index_sort, gmx_sort_insert]
  · simp [mergeValuesSpec]

/-- Claim C5 counterexample: a Pos-valued SubExpr-general evaluation on the
first call of the frame (empty cached `cgrp`) completes without signalling
any error: the NotImplemented throw sits only in the merge path. -/
theorem subexpr_pos_first_call_no_error :
    _gmx_sel_evaluate_subexpr SelValueType.posValue gmx_ana_index_merge
        (fun l => l) 0 { cgrpName := none, cgrp := [], vals := [] }
        { name := none, index := [0] }
      = Except.ok { cgrpName := none, cgrp := [0], vals := [0] } := by
  rfl

/-- Claim C5 amended: a Pos-valued SubExpr-general evaluation signals
NotImplemented exactly when the cached `cgrp` is non-empty and the missing
part `g \ cgrp` is non-empty, i.e. exactly when the merge step is reached;
the first call of a frame and calls with an empty missing part complete
without error. -/
theorem subexpr_pos_error_iff {V : Type} (gm : List V → List V → List V)
    (ce : List Nat → List V) (d : V) (st : SubState V) (g : IndexGroup) :
    _gmx_sel_evaluate_subexpr SelValueType.posValue gm ce d st g
        = Except.error EvalError.notImplementedError
      ↔ st.cgrp ≠ [] ∧ gmx_ana_index_difference g.index st.cgrp ≠ [] := by
  rw [_gmx_sel_evaluate_subexpr]
  by_cases h1 : st.cgrp = []
  · simp [h1]
  · rw [if_neg h1]
    by_cases h2 : gmx_ana_index_difference g.index st.cgrp = []
    · simp [h1, h2]
    · rw [if_neg h2]
      simp [h1, h2]

/-- Claim C7: re-evaluating a SubExpr-general node over the same group it
was already evaluated over this frame leaves both the cached `cgrp` and the
stored values unchanged after the first call: the second evaluation
returns the state of the first unchanged. -/
theorem subexpr_repeat_noop {V : Type} (vt : SelValueType)
    (gm : List V → List V → List V) (ce : List Nat → List V) (d : V)
    (name0 : Option String) (v0 : List V) (g : IndexGroup) :
    ∃ st1,
      _gmx_sel_evaluate_subexpr vt gm ce d
          { cgrpName := name0, cgrp := [], vals := v0 } g = Except.ok st1
      ∧ _gmx_sel_evaluate_subexpr vt gm ce d st1 g = Except.ok st1 := by
  refine ⟨{ cgrpName := name0, cgrp := g.index, vals := ce g.index }, ?_, ?_⟩
  · rw [_gmx_sel_evaluate_subexpr]
    simp [gmx_ana_index_copy]
  · by_cases hg : g.index = []
    · rw [_gmx_sel_evaluate_subexpr]
      simp [hg, gmx_ana_index_copy]
    · rw [_gmx_sel_evaluate_subexpr, if_neg (by simpa using hg)]
      simp [gmx_ana_index_difference_self]

/-- Claim C9: when a SubExpr node records the passed evaluation group into
its cached `cgrp` — the first-call copy in SubExpr-general and the
recording step in SubExpr-static-eval — the pre-existing `cgrp` name is
preserved and the passed-in group's name (which may be set) is not
adopted. -/
theorem subexpr_cgrp_keeps_name {V : Type} (vt : SelValueType)
    (gm : List V → List V → List V) (ce : List Nat → List V) (d : V)
    (name0 : Option String) (v0 : List V) (g : IndexGroup) :
    (∃ st1,
        _gmx_sel_evaluate_subexpr vt gm ce d
            { cgrpName := name0, cgrp := [], vals := v0 } g = Except.ok st1
        ∧ st1.cgrpName = name0)
    ∧ (_gmx_sel_evaluate_subexpr_staticeval ce
          { cgrpName := name0, cgrp := [], vals := v0 } g).cgrpName
        = name0 := by
  constructor
  · refine ⟨{ cgrpName := name0, cgrp := g.index, vals := ce g.index },
      ?_, rfl⟩
    rw [_gmx_sel_evaluate_subexpr]
    simp [gmx_ana_index_copy]
  · rw [_gmx_sel_evaluate_subexpr_staticeval]
    simp

/-!
SubExprRef-general value extraction (claim C10).
-/

theorem refWalk_zip {V : Type} (d : V) (c : List Nat) (vs : List V)
    (g : List Nat) (hc : List.Sorted (· < ·) c)
    (hg : List.Sorted (· < ·) g) (hsub : ∀ x ∈ g, x ∈ c)
    (hlen : c.length ≤ vs.length) :
    refWalk (c.zip vs) g
      = some (g.map fun a => vs.getD (c.indexOf a) d) := by
  induction c generalizing vs g with
  | nil =>
    cases g with
    | nil => simp [refWalk]
    | cons a gs => exact absurd (hsub a (List.mem_cons_self a gs)) (by simp)
  | cons c0 cs ih =>
    cases vs with
    | nil => simp at hlen
    | cons v0 vs =>
      cases g with
      | nil => simp [refWalk]
      | cons a gs =>
        have hc' := List.sorted_cons.mp hc
        have hg' := List.sorted_cons.mp hg
        have hlen' : cs.length ≤ vs.length := by simpa using hlen
        by_cases hlt : c0 < a
        · have hsub' : ∀ x ∈ a :: gs, x ∈ cs := by
            intro x hx
            have hax : a ≤ x := by
              rcases List.mem_cons.mp hx with hx | hx
              · exact hx ▸ le_refl a
              · exact le_of_lt (hg'.1 x hx)
            have : x ∈ c0 :: cs := hsub x hx
            rcases List.mem_cons.mp this with hxc | hxc
            · exact absurd (lt_of_lt_of_le hlt hax) (by simp [hxc])
            · exact hxc
          rw [List.zip_cons_cons, refWalk, if_pos hlt,
            ih vs (a :: gs) hc'.2 hg hsub' hlen']
          congr 1
          apply List.map_congr_left
          intro x hx
          have hxne : x ≠ c0 := by
            intro hxe
            have hax : a ≤ x := by
              rcases List.mem_cons.mp hx with hx | hx
              · exact hx ▸ le_refl a
              · exact le_of_lt (hg'.1 x hx)
            exact absurd (lt_of_lt_of_le hlt hax) (by simp [hxe])
          rw [List.indexOf_cons_ne _ (Ne.symm hxne)]
          simp
        · have ha : a = c0 := by
            have : a ∈ c0 :: cs := hsub a (List.mem_cons_self a gs)
            rcases List.mem_cons.mp this with hax | hax
            · exact hax
            · exact absurd (hc'.1 a hax) hlt
          have hsub' : ∀ x ∈ gs, x ∈ cs := by
            intro x hx
            have hax : a < x := hg'.1 x hx
            have : x ∈ c0 :: cs := hsub x (List.mem_cons_of_mem a hx)
            rcases List.mem_cons.mp this with hxc | hxc
            · exact absurd (ha ▸ hax) (by simp [hxc])
            · exact hxc
          rw [List.zip_cons_cons, refWalk, if_neg hlt,
            ih vs gs hc'.2 hg'.2 hsub' hlen']
          simp only [Option.map_some']
          congr 1
          rw [List.map_cons]
          congr 1
          · rw [ha, List.indexOf_cons_self]
            simp
          · apply List.map_congr_left
            intro x hx
            have hxne : x ≠ c0 := by
              intro hxe
              exact absurd (ha ▸ hg'.1 x hx) (by simp [hxe])
            rw [List.indexOf_cons_ne _ (Ne.symm hxne)]
            simp

/-- Claim C10: for a SubExprRef-general node with a non-null `g` and a
vector value type, the extraction loop terminates within the bounds of the
target's cached `cgrp` provided every index of `g` occurs in the target's
`cgrp` (both groups being sorted per the data-model invariant); the node's
`i`-th value is the target's stored value at the position of `g.index[i]`
within the target's `cgrp`, and the element count is set to `|g|`. -/
theorem subexprref_extract_spec {V : Type} (tcgrp : List Nat)
    (tvals : List V) (g : List Nat) (d : V)
    (hc : List.Sorted (· < ·) tcgrp) (hg : List.Sorted (· < ·) g)
    (hsub : ∀ x ∈ g, x ∈ tcgrp) (hlen : tcgrp.length ≤ tvals.length) :
    _gmx_sel_evaluate_subexprref tcgrp tvals g
      = some (g.length, g.map fun a => tvals.getD (tcgrp.indexOf a) d) := by
  rw [_gmx_sel_evaluate_subexprref,
    refWalk_zip d tcgrp tvals g hc hg hsub hlen]
  rfl

/-- Witness for claim C10 at a concrete input: target `cgrp = [0, 2, 4]`
with stored values `[10, 12, 14]`, reference evaluated over
`g = [2, 4]`. -/
theorem subexprref_extract_spec_witness :
    List.Sorted (· < ·) [0, 2, 4]
      ∧ _gmx_sel_evaluate_subexprref [0, 2, 4] [10, 12, 14] [2, 4]
          = some (2, [12, 14]) := by
  have hc : List.Sorted (· < ·) [0, 2, 4] := by simp [List.sorted_cons]
  have hg : List.Sorted (· < ·) [2, 4] := by simp [List.sorted_cons]
  have h := subexprref_extract_spec [0, 2, 4] [10, 12, 14] [2, 4] 0 hc hg
    (by decide) (by decide)
  refine ⟨hc, ?_⟩
  rw [h]
  rfl

/-!
Arithmetic evaluation (claim C8).
-/

theorem arithLoop_length {V : Type} (op : V → V → V)
    (ls rs : Bool) (lv rv : List V) (d : V) :
    ∀ n i1 i2, (arithLoop op ls rs lv rv d n i1 i2).length = n := by
  intro n
  induction n with
  | zero => intro i1 i2; rfl
  | succ m ih => intro i1 i2; simp [arithLoop, ih]

theorem arithLoop_broadcast {V : Type} (op : V → V → V) (lv rv : List V)
    (d : V) :
    ∀ n i2 i, i < n →
      (arithLoop op true false lv rv d n 0 i2).get? i
        = some (op (lv.getD 0 d) (rv.getD (i2 + i) d)) := by
  intro n
  induction n with
  | zero => intro i2 i hi; omega
  | succ m ih =>
    intro i2 i hi
    cases i with
    | zero => simp [arithLoop]
    | succ j =>
      have hj : j < m := by omega
      have harith : arithLoop op true false lv rv d (m + 1) 0 i2
          = op (lv.getD 0 d) (rv.getD i2 d)
              :: arithLoop op true false lv rv d m 0 (i2 + 1) := by
        simp [arithLoop]
      rw [harith]
      simp only [List.get?]
      have heq : i2 + 1 + j = i2 + (j + 1) := by omega
      rw [ih (i2 + 1) j hj, heq]

/-- Claim C8: for an Arithmetic node evaluated over `g`, the result length
(and the stored `v.nr`) is 1 when the node has the `SEL_SINGLEVAL` flag and
`|g|` otherwise; and when the left operand is `SEL_SINGLEVAL` while the
right operand holds `|g|` values, `result[i] = op(left[0], right[i])` for
every `i < |g|` — the left read index never advances and the right read
index advances each iteration. -/
theorem arithmetic_broadcast_spec {V : Type} (op : V → V → V)
    (lf rf : List Nat → List V) (d : V) (g : List Nat)
    (hr : (rf g).length = g.length) :
    (∀ selSingle ls rs : Bool,
        (_gmx_sel_evaluate_arithmetic op selSingle ls rs lf rf d g).1
          = if selSingle then 1 else g.length)
    ∧ (∀ selSingle ls rs : Bool,
        (_gmx_sel_evaluate_arithmetic op selSingle ls rs lf rf d g).2.length
          = if selSingle then 1 else g.length)
    ∧ (∀ i, i < g.length →
        ∃ y, (rf g).get? i = some y
          ∧ (_gmx_sel_evaluate_arithmetic op false true false lf rf d g).2.get? i
              = some (op ((lf g).getD 0 d) y)) := by
  refine ⟨fun selSingle ls rs => rfl, ?_, ?_⟩
  · intro selSingle ls rs
    exact arithLoop_length op ls rs (lf g) (rf g) d _ 0 0
  · intro i hi
    have hi' : i < (rf g).length := hr ▸ hi
    refine ⟨(rf g).getD i d, ?_, ?_⟩
    · rw [List.get?_eq_get hi', List.getD_eq_getElem _ _ hi']
      simp [List.get_eq_getElem]
    · have h := arithLoop_broadcast op (lf g) (rf g) d g.length 0 i hi
      simpa [_gmx_sel_evaluate_arithmetic] using h

/-- Witness for claim C8 at a concrete input (spec scenario 5): left
`SINGLE_VAL` value `[2]`, right `[1, 2, 3]` over a three-atom group with
multiplication: the result is `[2, 4, 6]` of length 3. -/
theorem arithmetic_broadcast_spec_witness :
    ([1, 2, 3] : List Nat).length = [0, 1, 2].length
      ∧ (_gmx_sel_evaluate_arithmetic (fun a b => a * b) false true false
            (fun _ => [2]) (fun _ => [1, 2, 3]) 0 [0, 1, 2]).2.length
          = if false then 1 else [0, 1, 2].length := by
  have hr : ([1, 2, 3] : List Nat).length = [0, 1, 2].length := by decide
  exact ⟨hr,
    (arithmetic_broadcast_spec (fun a b => a * b) (fun _ => [2])
      (fun _ => [1, 2, 3]) 0 [0, 1, 2] hr).2.1 false true false⟩

/-!
Per-frame `init_frame` lifecycle (claim C6).
-/

theorem evalsInFrame_not_init (k : Nat) (s : MethodState)
    (h : s.initFrame = false) : evalsInFrame k s = s := by
  induction k with
  | zero => rfl
  | succ m ih =>
    rw [evalsInFrame, methodFrameStep, if_neg (by simp [h])]
    exact ih

theorem frameEvals_count (s : MethodState) (k : Nat) (hk : 1 ≤ k) :
    frameEvals s k = { initFrame := false, initCount := s.initCount + 1 } := by
  obtain ⟨m, rfl⟩ : ∃ m, k = m + 1 := ⟨k - 1, by omega⟩
  rw [frameEvals, evalsInFrame, methodFrameStep, if_pos rfl]
  exact evalsInFrame_not_init m _ rfl

theorem runFrames_count (ks : List Nat) :
    ∀ s : MethodState, (∀ k ∈ ks, 1 ≤ k) →
      (runFrames s ks).initCount = s.initCount + ks.length := by
  induction ks with
  | nil => intro s _; simp [runFrames]
  | cons k ks ih =>
    intro s h
    have hk : 1 ≤ k := h k (List.mem_cons_self k ks)
    have hrest : ∀ j ∈ ks, 1 ≤ j := fun j hj => h j (List.mem_cons_of_mem k hj)
    show (runFrames (frameEvals s k) ks).initCount = s.initCount + (ks.length + 1)
    rw [ih (frameEvals s k) hrest, frameEvals_count s k hk]
    show s.initCount + 1 + ks.length = s.initCount + (ks.length + 1)
    omega

/-- Claim C6: within one call to `evaluate(collection, frame, pbc)`, a
method node whose method declares an `init_frame` callback has the callback
invoked exactly once, even when the node is evaluated several times in the
frame through multiple subexpression references (any `k ≥ 1` evaluations
increment the invocation count by exactly 1); across `n` frames, each
evaluating the node at least once, it is invoked exactly `n` times; and the
lifecycle walk `init_frame_eval` sets the `SEL_INITFRAME` flag exactly on
expression nodes whose method has the callback. -/
theorem method_init_frame_once (s0 : MethodState) (ks : List Nat)
    (hks : ∀ k ∈ ks, 1 ≤ k) :
    (runFrames s0 ks).initCount = s0.initCount + ks.length
    ∧ (∀ (s : MethodState) (k : Nat), 1 ≤ k →
        (frameEvals s k).initCount = s.initCount + 1)
    ∧ (∀ (typ : SelType) (cb i e : Bool) (ch : List SelTree),
        (init_frame_eval (SelTree.node typ cb i e ch)).initFrame
          = (decide (typ = SelType.selExpression) && cb)) := by
  refine ⟨runFrames_count ks s0 hks, ?_, ?_⟩
  · intro s k hk
    rw [frameEvals_count s k hk]
  · intro typ cb i e ch
    rw [init_frame_eval, SelTree.initFrame]

/-- Witness for claim C6 at a concrete input (spec scenario 6): the node is
evaluated three times in each of two frames; the callback fires twice in
total. -/
theorem method_init_frame_once_witness :
    (∀ k ∈ [3, 3], 1 ≤ k)
      ∧ (runFrames { initFrame := false, initCount := 0 } [3, 3]).initCount
          = 0 + [3, 3].length := by
  have hks : ∀ k ∈ [3, 3], 1 ≤ k := by decide
  exact ⟨hks,
    (method_init_frame_once { initFrame := false, initCount := 0 }
      [3, 3] hks).1⟩
